import Mathlib

/-!
Verification of the smithy git web viewer (request routing and
git-content resolution): a shallow embedding of the reference collector,
revision resolver, tree navigator, diff/patch engine, log pagination and
route dispatcher, with theorems settling the specification claims.

External collaborators (go-git object store operations, time formatting,
syntax highlighting) are modelled at their call interface: an operation
that can fail is an Option or Except valued field or oracle, exactly at
the points the source consults them.
-/

namespace Smithy

/-! ## Lexicographic string comparison

Go sorts references with strings.Compare on the full reference name
(ReferenceByName.Less, source lines 56-63).  Byte-wise lexicographic
comparison is modelled on the character list of the string; it is made
executable here because the kernel must evaluate it on witnesses. -/

/-- Byte-wise (codepoint-wise) lexicographic less-or-equal on character
lists, the order strings.Compare induces. -/
def lexLeB : List Char → List Char → Bool
  | [], _ => true
  | _ :: _, [] => false
  | a :: as, b :: bs =>
    if a.toNat < b.toNat then true
    else if b.toNat < a.toNat then false
    else lexLeB as bs

/-- Lexicographic less-or-equal on strings, as a proposition. -/
def strLe (a b : String) : Prop := lexLeB a.data b.data = true

instance : DecidableRel strLe := fun a b =>
  inferInstanceAs (Decidable (lexLeB a.data b.data = true))

/-- Totality of the lexicographic order (needed to sort with it). -/
def lexLeB_total : ∀ x y : List Char, lexLeB x y = true ∨ lexLeB y x = true := by
  intro x
  induction x with
  | nil => intro y; exact Or.inl rfl
  | cons a as ih =>
    intro y
    cases y with
    | nil => exact Or.inr rfl
    | cons b bs =>
      rcases Nat.lt_trichotomy a.toNat b.toNat with h | h | h
      · left; simp [lexLeB, h]
      · rcases ih bs with h2 | h2
        · left; simp [lexLeB, h, h2]
        · right; simp [lexLeB, h.symm, h2]
      · right; simp [lexLeB, h]

/-- Transitivity of the lexicographic order (needed to sort with it). -/
def lexLeB_trans :
    ∀ x y z : List Char,
      lexLeB x y = true → lexLeB y z = true → lexLeB x z = true := by
  intro x
  induction x with
  | nil => intro y z _ _; rfl
  | cons a as ih =>
    intro y z hxy hyz
    cases y with
    | nil => simp [lexLeB] at hxy
    | cons b bs =>
      cases z with
      | nil => simp [lexLeB] at hyz
      | cons c cs =>
        simp only [lexLeB] at hxy hyz ⊢
        rcases Nat.lt_trichotomy a.toNat b.toNat with h1 | h1 | h1
        · rcases Nat.lt_trichotomy b.toNat c.toNat with h2 | h2 | h2
          · simp [Nat.lt_trans h1 h2]
          · simp [h2 ▸ h1]
          · rw [if_neg (Nat.lt_asymm h2), if_pos h2] at hyz
            exact absurd hyz (by simp)
        · rcases Nat.lt_trichotomy b.toNat c.toNat with h2 | h2 | h2
          · simp [h1 ▸ h2]
          · rw [if_neg (by omega), if_neg (by omega)] at hxy hyz ⊢
            exact ih bs cs hxy hyz
          · rw [if_neg (Nat.lt_asymm h2), if_pos h2] at hyz
            exact absurd hyz (by simp)
        · rw [if_neg (Nat.lt_asymm h1), if_pos h1] at hxy
          exact absurd hxy (by simp)

/-! ## Reference collector (source lines 56-94)

A reference is a named pointer into the object store; the collector
drains a sequential iterator (go-git storer.ReferenceIter) whose Next
yields either a reference, io.EOF, or another error.  The iterator is
modelled as the list of step results it will produce in order; an
exhausted model list behaves like a stream that keeps signalling EOF. -/

/-- A named git reference: the full canonical name (refs/heads/...,
refs/tags/...) and the hash it points at. -/
structure Reference where
  name : String
  target : String
deriving DecidableEq

/-- The order ReferenceByName.Less induces: strings.Compare on the full
reference name. -/
def refLE (a b : Reference) : Prop := strLe a.name b.name

instance : DecidableRel refLE := fun a b =>
  inferInstanceAs (Decidable (strLe a.name b.name))

instance : IsTotal Reference refLE :=
  ⟨fun a b => lexLeB_total a.name.data b.name.data⟩

instance : IsTrans Reference refLE :=
  ⟨fun a b c hab hbc => lexLeB_trans a.name.data b.name.data c.name.data hab hbc⟩

/-- One result of the iterator Next call: a reference, end-of-stream
(io.EOF), or another iteration error (numbered abstractly). -/
inductive RefStep where
  | ref (r : Reference)
  | eof
  | err (e : Nat)
deriving DecidableEq

/-- sort.Sort(ReferenceByName(refs)): sorting by refLE. -/
def sortRefs (l : List Reference) : List Reference := List.insertionSort refLE l

/-- The collection loop of ReferenceCollector: drain Next results,
breaking on io.EOF (then sorting), and returning the partial slice
together with the error on any other error. -/
def collectLoop : List RefStep → List Reference → List Reference × Option Nat
  | [], acc => (sortRefs acc, none)
  | RefStep.eof :: _, acc => (sortRefs acc, none)
  | RefStep.err e :: _, acc => (acc, some e)
  | RefStep.ref r :: rest, acc => collectLoop rest (acc ++ [r])

/-- ReferenceCollector (source lines 76-94) on a modelled iterator. -/
def ReferenceCollector (steps : List RefStep) : List Reference × Option Nat :=
  collectLoop steps []

/-! ## Revision resolver (source lines 220-229 and 342-353)

findMainBranch tries "main" then "master" through the underlying
ResolveRevision; a handler given no revision string takes the branch
name found this way and resolves it again.  ResolveRevision itself is a
go-git operation and is modelled as an oracle from revision strings to
an optional commit hash (none models its resolution error). -/

/-- findMainBranch (source lines 220-229): iterate the candidates
"main", "master" in order, returning the first whose ResolveRevision
succeeds together with its hash; fail when neither resolves. -/
def findMainBranch (resolveRevision : String → Option String) :
    Option (String × String) :=
  match resolveRevision "main" with
  | some h => some ("main", h)
  | none =>
    match resolveRevision "master" with
    | some h => some ("master", h)
    | none => none

/-- The revision-resolution step the handlers perform (TreeView source
lines 342-353): an empty revision string (no ref URL part) is resolved
by the default-branch policy of findMainBranch, whose branch name is
then passed to ResolveRevision; a non-empty string goes to
ResolveRevision directly. -/
def resolveOrDefault (resolveRevision : String → Option String)
    (rev : String) : Option String :=
  if rev = "" then
    match findMainBranch resolveRevision with
    | none => none
    | some (name, _) => resolveRevision name
  else resolveRevision rev

/-! ## Diff engine (source lines 505-538)

GetChanges diffs a commit against its first parent, or against a nil
(empty) tree when the commit has no parent.  Trees are modelled as
flattened file listings (path and blob hash), and object.DiffTree of
go-git is modelled from its library semantics over those listings. -/

/-- A file of a tree snapshot: its full path and the blob hash. -/
structure TreeFile where
  path : String
  hash : String
deriving DecidableEq

/-- A change between two tree snapshots, as go-git object.Change
reports it: an insertion, a deletion, or a modification. -/
inductive Change where
  | insert (toFile : TreeFile)
  | delete (fromFile : TreeFile)
  | modify (fromFile toFile : TreeFile)
deriving DecidableEq

/-- Modelled from the library semantics of go-git object.DiffTree, the
external diff used by GetChanges: a file present only in the to-tree is
an insertion, present only in the from-tree a deletion, and present in
both under a different hash a modification; GetChanges passes a nil
from-tree for a parentless commit and DiffTree treats nil as the empty
tree. -/
def diffTree (fromTree toTree : List TreeFile) : List Change :=
  (fromTree.filter
      (fun e => (toTree.find? (fun e2 => e2.path == e.path)).isNone)).map
    Change.delete ++
  toTree.filterMap (fun e =>
    match fromTree.find? (fun e2 => e2.path == e.path) with
    | none => some (Change.insert e)
    | some e0 => if e0.hash == e.hash then none else some (Change.modify e0 e))

/-- The first-parent data GetChanges consults: the parent commit's tree
(none models a store failure reading it). -/
structure ParentInfo where
  tree : Option (List TreeFile)

/-- The commit data GetChanges consults: the result of commit.Parent(0)
(none models the no-parent error) and of commit.Tree() (none models a
store failure). -/
structure DiffCommit where
  parent : Option ParentInfo
  tree : Option (List TreeFile)

/-- An internal store failure, the only error kind GetChanges and
FormatChanges surface. -/
inductive GitErr where
  | storeFailure
deriving DecidableEq

/-- GetChanges (source lines 505-524): parentTree stays nil when
Parent(0) fails (no parent); a failure reading the parent tree or the
commit tree aborts; otherwise DiffTree(parentTree, currentTree). -/
def GetChanges (c : DiffCommit) : Except GitErr (List Change) :=
  match c.parent with
  | some p =>
    match p.tree with
    | none => Except.error GitErr.storeFailure
    | some pt =>
      match c.tree with
      | none => Except.error GitErr.storeFailure
      | some t => Except.ok (diffTree pt t)
  | none =>
    match c.tree with
    | none => Except.error GitErr.storeFailure
    | some t => Except.ok (diffTree [] t)

/-- The per-change patch loop of FormatChanges: render every change
through change.Patch()+PatchHTML (modelled as the patchOf oracle, none
models a Patch() error); the first failure aborts the whole render. -/
def collectPatches (patchOf : Change → Option String) :
    List Change → Option (List String)
  | [] => some []
  | ch :: rest =>
    match patchOf ch with
    | none => none
    | some p => (collectPatches patchOf rest).map (fun ss => p :: ss)

/-- FormatChanges (source lines 527-538): render each change and join
the fragments with a blank-line separator. -/
def FormatChanges (patchOf : Change → Option String) (changes : List Change) :
    Option String :=
  (collectPatches patchOf changes).map (String.intercalate "\n\n\n\n")

/-- The outcome vocabulary of the commit handler.  Http500 exists in
the codebase (source lines 191-195) but CommitView never calls it. -/
inductive CommitViewResult where
  | http404
  | http500
  | page (body : String)
deriving DecidableEq

/-- CommitView (source lines 601-639): unknown repo, empty or unknown
commit id, a GetChanges failure and a FormatChanges failure all map to
Http404; success renders the formatted changes. -/
def CommitView (repoFound : Bool) (commitID : String)
    (commitObject : String → Option DiffCommit)
    (patchOf : Change → Option String) : CommitViewResult :=
  if repoFound = false then CommitViewResult.http404
  else if commitID = "" then CommitViewResult.http404
  else
    match commitObject commitID with
    | none => CommitViewResult.http404
    | some c =>
      match GetChanges c with
      | Except.error _ => CommitViewResult.http404
      | Except.ok changes =>
        match FormatChanges patchOf changes with
        | none => CommitViewResult.http404
        | some body => CommitViewResult.page body

/-! ## Patch renderer (source lines 540-599)

PatchView renders a plain-text mailbox patch.  The go-git operations it
performs on the commit (NumParents, Parent(0), parent.Patch(commit),
Stats) are modelled as fields holding each call's result. -/

/-- The first parent as PatchView uses it: the result of
parentCommit.Patch(commitObj), the unified diff of the commit against
this (first) parent; none models a Patch() failure. -/
structure PatchParent where
  patchAgainst : Option String

/-- The commit data PatchView consults: identity and author metadata,
the parent count, the Parent(0) result (none models a failure reading
the first parent), and the Stats() result (none models its failure).
authorDate stands for Author.When formatted with the fixed layout
"Mon, 2 Jan 2006 15:04:05 -0700"; time formatting is external. -/
structure PatchCommit where
  hash : String
  authorName : String
  authorEmail : String
  authorDate : String
  message : String
  numParents : Nat
  parent0 : Option PatchParent
  stats : Option String

/-- The outcome vocabulary of the patch handler. -/
inductive PatchResult where
  | http404
  | http500
  | ok (body : String)
deriving DecidableEq

/-- The mailbox body PatchView writes on success (source lines 586-598):
the synthetic From line with a fixed placeholder date, the From:,
Date: and Subject: [PATCH] headers, a literal --- separator, the
diffstat, and the unified diff. -/
def mailboxBody (c : PatchCommit) (stats patch : String) : String :=
  "From " ++ c.hash ++ " Mon Sep 17 00:00:00 2001" ++ "\n" ++
  "From: " ++ c.authorName ++ " <" ++ c.authorEmail ++ ">" ++ "\n" ++
  "Date: " ++ c.authorDate ++ "\n" ++
  "Subject: [PATCH] " ++ c.message ++ "\n" ++
  "---" ++ "\n" ++
  stats ++ "\n" ++
  patch

/-- The commit-level part of PatchView (source lines 564-598): a commit
with zero parents is rejected with Http500; failures of Parent(0), of
the patch computation and of Stats() are Http500; otherwise the mailbox
body is written. -/
def renderPatch (c : PatchCommit) : PatchResult :=
  if c.numParents = 0 then PatchResult.http500
  else
    match c.parent0 with
    | none => PatchResult.http500
    | some p =>
      match p.patchAgainst with
      | none => PatchResult.http500
      | some patch =>
        match c.stats with
        | none => PatchResult.http500
        | some stats => PatchResult.ok (mailboxBody c stats patch)

/-- PatchView (source lines 540-599): unknown repo, empty commit id and
unknown commit are Http404; the rest is renderPatch. -/
def PatchView (repoFound : Bool) (commitID : String)
    (commitObject : String → Option PatchCommit) : PatchResult :=
  if repoFound = false then PatchResult.http404
  else if commitID = "" then PatchResult.http404
  else
    match commitObject commitID with
    | none => PatchResult.http404
    | some c => renderPatch c

/-! ## Tree navigator (source lines 329-437)

A git tree is modelled as a list of entries; an entry is a name, the
mode.IsFile() discriminator as the source reads it, and the object it
points at (a blob whose Contents() may fail, or a subtree). -/

/-- A git object: a blob (file) whose contents read may fail, or a
tree of entries (name, Mode.IsFile(), object). -/
inductive GitObject where
  | blob (contents : Option String)
  | tree (entries : List (String × Bool × GitObject))

/-- Tree.FindEntry of go-git at the call interface of TreeView: walk
the slash-separated path segments through subtrees and return the
named entry; looking through a blob or past a missing name fails. -/
def findEntry : List (String × Bool × GitObject) → List String →
    Option (String × Bool × GitObject)
  | _, [] => none
  | entries, [seg] => entries.find? (fun e => e.1 == seg)
  | entries, seg :: rest =>
    match entries.find? (fun e => e.1 == seg) with
    | some (_, _, GitObject.tree es) => findEntry es rest
    | _ => none

/-- Tree.Tree of go-git: resolve the path and require a subtree. -/
def subtreeAt (entries : List (String × Bool × GitObject))
    (segs : List String) : Option (List (String × Bool × GitObject)) :=
  match findEntry entries segs with
  | some (_, _, GitObject.tree es) => some es
  | _ => none

/-- Tree.File of go-git followed by file.Contents(): resolve the path,
require a blob, and read it (the inner none models a Contents error). -/
def fileAt (entries : List (String × Bool × GitObject))
    (segs : List String) : Option (Option String) :=
  match findEntry entries segs with
  | some (_, _, GitObject.blob contents) => some contents
  | _ => none

/-- Splitting accumulator: the slash splitter below. -/
def splitSlashAux : List Char → List Char → List String
  | [], acc => [String.mk acc.reverse]
  | c :: rest, acc =>
    if c = '/' then String.mk acc.reverse :: splitSlashAux rest []
    else splitSlashAux rest (c :: acc)

/-- strings.Split(path, "/"): the slash-separated segments of a path
(never empty; the empty string splits to one empty segment). -/
def splitSlash (s : String) : List String := splitSlashAux s.data []

/-- filepath.Dir on the clean relative slash paths the tree handler
passes it: drop the last segment, or "." for a single segment. -/
def parentDir (path : String) : String :=
  let segs := splitSlash path
  if segs.length ≤ 1 then "." else String.intercalate "/" segs.dropLast

/-- The result a tree-path navigation hands to the template layer:
the root listing, a directory listing, a file with its contents, or
not-found.  Syntax highlighting is best-effort in the source (its
failure is ignored at line 423) and carries no extra outcome. -/
inductive NavResult where
  | root (files : List (String × Bool × GitObject))
  | directory (parentPath subTreeName path : String)
      (files : List (String × Bool × GitObject))
  | file (parentPath path contents : String)
  | notFound

/-- Does the result carry directory data (a listing of entries)? -/
def NavResult.hasDirData : NavResult → Bool
  | NavResult.root _ => true
  | NavResult.directory _ _ _ _ => true
  | _ => false

/-- Does the result carry file data (blob contents)? -/
def NavResult.hasFileData : NavResult → Bool
  | NavResult.file _ _ _ => true
  | _ => false

/-- The navigation core of TreeView (source lines 382-437): an empty
path lists the root tree; otherwise FindEntry decides between the
not-found page, the subtree listing (non-file modes, via Tree.Tree) and
the file page (file modes, via Tree.File and Contents, whose failures
are not-found). -/
def treeNavigate (entries : List (String × Bool × GitObject))
    (treePath : String) : NavResult :=
  if treePath = "" then NavResult.root entries
  else
    match findEntry entries (splitSlash treePath) with
    | none => NavResult.notFound
    | some e =>
      if e.2.1 = false then
        match subtreeAt entries (splitSlash treePath) with
        | none => NavResult.notFound
        | some es => NavResult.directory (parentDir treePath) e.1 treePath es
      else
        match fileAt entries (splitSlash treePath) with
        | none => NavResult.notFound
        | some none => NavResult.notFound
        | some (some contents) =>
            NavResult.file (parentDir treePath) treePath contents

/-- The commit data TreeView consults: the commit.Tree() result (none
models the unreadable-tree store failure of source lines 374-379). -/
structure TreeCommit where
  tree : Option (List (String × Bool × GitObject))

/-- The repository operations TreeView consults. -/
structure TreeRepo where
  resolveRevision : String → Option String
  commitObject : String → Option TreeCommit

/-- The outcome vocabulary of the tree handler.  Http500 exists in the
codebase (source lines 191-195) but TreeView never calls it. -/
inductive TreeViewResult where
  | http404
  | http500
  | page (r : NavResult)

/-- TreeView (source lines 329-437): unknown repo is Http404; with no
ref URL part the default branch is found (failure: Http404); an
unresolvable revision, unknown commit, and an unreadable commit tree
are all Http404; then the navigation core runs, its not-found rendered
as Http404 and every other outcome as a 200 page. -/
def TreeView (repo : Option TreeRepo) (urlParts : List String) :
    TreeViewResult :=
  match repo with
  | none => TreeViewResult.http404
  | some repo =>
    let refName? : Option String :=
      if urlParts.length > 1 then some (urlParts.getD 1 "")
      else (findMainBranch repo.resolveRevision).map Prod.fst
    match refName? with
    | none => TreeViewResult.http404
    | some refName =>
      match repo.resolveRevision refName with
      | none => TreeViewResult.http404
      | some revision =>
        let treePath := if urlParts.length > 2 then urlParts.getD 2 "" else ""
        match repo.commitObject revision with
        | none => TreeViewResult.http404
        | some c =>
          match c.tree with
          | none => TreeViewResult.http404
          | some entries =>
            match treeNavigate entries treePath with
            | NavResult.notFound => TreeViewResult.http404
            | r => TreeViewResult.page r

/-! ## Log pagination (source lines 39 and 439-484)

The log handler walks a commit iterator (go-git Log, ordered by
committer time) for at most PAGE_SIZE steps.  The iterator is modelled
as the list of Next results it will produce; an exhausted model list
behaves like a stream that keeps signalling EOF.  The source checks
only io.EOF: on any other error the loop continues into
strings.Split(commit.Message, ...) with the nil commit pointer the
failed Next returned, which is a nil dereference; that outcome is made
explicit in the model. -/

/-- PAGE_SIZE (source line 39). -/
def PAGE_SIZE : Nat := 100

/-- The commit fields the log page reads: hash string, full message and
the committer timestamp (seconds). -/
structure LogCommit where
  hash : String
  message : String
  committerTime : Nat
deriving DecidableEq

/-- One result of the commit iterator Next call: a commit, io.EOF, or
another error (which go-git returns together with a nil commit). -/
inductive LogStep where
  | next (c : LogCommit)
  | eof
  | err
deriving DecidableEq

/-- The first line of a message: strings.Split(message, newline) at
index 0. -/
def firstLine (s : String) : String :=
  String.mk (s.data.takeWhile (fun c => c ≠ '\n'))

/-- The derived Commit display record (source lines 65-69, built at
lines 471-475): the commit, the first message line as subject, and the
8-character truncated hash. -/
structure CommitEntry where
  commit : LogCommit
  subject : String
  shortHash : String
deriving DecidableEq

/-- Building one display record (source lines 469-475). -/
def mkCommitEntry (c : LogCommit) : CommitEntry :=
  { commit := c, subject := firstLine c.message, shortHash := c.hash.take 8 }

/-- The outcome of the per-page loop: a page of commits, or the nil
dereference the source performs when Next fails with a non-EOF error. -/
inductive LogOutcome where
  | page (commits : List CommitEntry)
  | nilDereference
deriving DecidableEq

/-- The paging loop of LogView (source lines 462-477): up to the given
number of Next calls; io.EOF breaks; a commit is appended; any other
error reaches the commit.Message read on the nil commit. -/
def logLoop : Nat → List LogStep → List CommitEntry → LogOutcome
  | 0, _, acc => LogOutcome.page acc
  | Nat.succ _, [], acc => LogOutcome.page acc
  | Nat.succ _, LogStep.eof :: _, acc => LogOutcome.page acc
  | Nat.succ _, LogStep.err :: _, _ => LogOutcome.nilDereference
  | Nat.succ n, LogStep.next c :: rest, acc =>
      logLoop n rest (acc ++ [mkCommitEntry c])

/-- The commit page LogView collects from an iterator. -/
def logPage (steps : List LogStep) : LogOutcome := logLoop PAGE_SIZE steps []

/-- Newest-first order on the commits of a page: each commit's
committer time is at least the next one's. -/
def newestFirst (a b : LogCommit) : Prop := b.committerTime ≤ a.committerTime

/-! ## Route dispatcher (source lines 659-723)

The route patterns are Go regular expressions; every pattern of
CompileRoutes is anchored at the start with a caret, so matching is
modelled from position zero.  The needed regular-expression fragment
(literals, character classes with + and *, the any-character dot, the
end anchor, capture groups) is embedded with Go/RE2 leftmost-first
submatch semantics: greedy groups try the longest capture first and
backtrack on failure of the continuation. -/

/-- One compiled pattern element. -/
inductive RItem where
  | lit (s : List Char)
  | one (p : Char → Bool)
  | grpPlus (p : Char → Bool)
  | grpStar (p : Char → Bool)
  | eos

/-- Greedy backtracking for a capture group: try capture length k,
then k-1, ... down to lo; f is the continuation matching the remaining
pattern on the remaining input. -/
def tryCaps (f : List Char → Option (List (List Char))) (s : List Char)
    (lo : Nat) : Nat → Option (List (List Char))
  | 0 =>
    if 0 < lo then none
    else
      match f s with
      | some caps => some ([] :: caps)
      | none => none
  | Nat.succ k =>
    if Nat.succ k < lo then none
    else
      match f (List.drop (Nat.succ k) s) with
      | some caps => some (List.take (Nat.succ k) s :: caps)
      | none => tryCaps f s lo k

/-- Run a pattern against an input from position zero, returning the
captures in group-index order on a match. -/
def runItems : List RItem → List Char → Option (List (List Char))
  | [], _ => some []
  | RItem.lit l :: rest, s =>
    if l.isPrefixOf s then runItems rest (List.drop l.length s) else none
  | RItem.one p :: rest, s =>
    match s with
    | [] => none
    | c :: s2 => if p c then runItems rest s2 else none
  | RItem.grpPlus p :: rest, s =>
    tryCaps (fun t => runItems rest t) s 1 (List.takeWhile p s).length
  | RItem.grpStar p :: rest, s =>
    tryCaps (fun t => runItems rest t) s 0 (List.takeWhile p s).length
  | RItem.eos :: rest, s =>
    match s with
    | [] => runItems rest []
    | _ :: _ => none

/-- MatchString plus FindStringSubmatch without the whole-match entry:
the ordered capture list, or none when the pattern does not match. -/
def matchPat (items : List RItem) (s : String) : Option (List String) :=
  (runItems items s.data).map (List.map (fun l => String.mk l))

/-- The label character class of CompileRoutes (source line 667):
[a-zA-Z0-9\-~.]. -/
def isLabelChar (c : Char) : Bool :=
  (decide ('a' ≤ c) && decide (c ≤ 'z')) ||
  (decide ('A' ≤ c) && decide (c ≤ 'Z')) ||
  (decide ('0' ≤ c) && decide (c ≤ '9')) ||
  c == '-' || c == '~' || c == '.'

/-- The commit-hash character class (source lines 675-676): [a-z0-9]. -/
def isHashChar (c : Char) : Bool :=
  (decide ('a' ≤ c) && decide (c ≤ 'z')) ||
  (decide ('0' ≤ c) && decide (c ≤ '9'))

/-- The Go regexp dot: any character except newline. -/
def isAnyChar (c : Char) : Bool := c != '\n'

/-- indexUrl (source line 669). -/
def indexUrl : List RItem := [RItem.lit "/".data, RItem.eos]

/-- repoGitUrl (source line 670), not anchored at the end. -/
def repoGitUrl : List RItem :=
  [RItem.lit "/git/".data, RItem.grpPlus isLabelChar]

/-- repoIndexUrl (source line 671). -/
def repoIndexUrl : List RItem :=
  [RItem.lit "/".data, RItem.grpPlus isLabelChar, RItem.eos]

/-- refsUrl (source line 672). -/
def refsUrl : List RItem :=
  [RItem.lit "/".data, RItem.grpPlus isLabelChar, RItem.lit "/refs".data,
   RItem.eos]

/-- logDefaultUrl (source line 673). -/
def logDefaultUrl : List RItem :=
  [RItem.lit "/".data, RItem.grpPlus isLabelChar, RItem.lit "/log".data,
   RItem.eos]

/-- logUrl (source line 674). -/
def logUrl : List RItem :=
  [RItem.lit "/".data, RItem.grpPlus isLabelChar, RItem.lit "/log/".data,
   RItem.grpPlus isLabelChar, RItem.eos]

/-- commitUrl (source line 675). -/
def commitUrl : List RItem :=
  [RItem.lit "/".data, RItem.grpPlus isLabelChar, RItem.lit "/commit/".data,
   RItem.grpPlus isHashChar, RItem.eos]

/-- patchUrl (source line 676): the dot before patch is the unescaped
any-character metacharacter, and the pattern is not anchored at the
end. -/
def patchUrl : List RItem :=
  [RItem.lit "/".data, RItem.grpPlus isLabelChar, RItem.lit "/commit/".data,
   RItem.grpPlus isHashChar, RItem.one isAnyChar, RItem.lit "patch".data]

/-- treeRootUrl (source line 678). -/
def treeRootUrl : List RItem :=
  [RItem.lit "/".data, RItem.grpPlus isLabelChar, RItem.lit "/tree".data,
   RItem.eos]

/-- treeRootRefUrl (source line 679). -/
def treeRootRefUrl : List RItem :=
  [RItem.lit "/".data, RItem.grpPlus isLabelChar, RItem.lit "/tree/".data,
   RItem.grpPlus isLabelChar, RItem.eos]

/-- treeRootRefPathUrl (source line 680). -/
def treeRootRefPathUrl : List RItem :=
  [RItem.lit "/".data, RItem.grpPlus isLabelChar, RItem.lit "/tree/".data,
   RItem.grpPlus isLabelChar, RItem.lit "/".data, RItem.grpStar isAnyChar,
   RItem.eos]

/-- The handler a route is bound to. -/
inductive ViewTag where
  | index
  | repoIndex
  | repoGit
  | refs
  | logDefault
  | log
  | commit
  | patch
  | tree
deriving DecidableEq

/-- A route: a compiled pattern bound to a handler. -/
structure Route where
  pattern : List RItem
  view : ViewTag

/-- CompileRoutes (source lines 682-694), in registration order. -/
def routes : List Route :=
  [⟨indexUrl, ViewTag.index⟩,
   ⟨repoIndexUrl, ViewTag.repoIndex⟩,
   ⟨repoGitUrl, ViewTag.repoGit⟩,
   ⟨refsUrl, ViewTag.refs⟩,
   ⟨logDefaultUrl, ViewTag.logDefault⟩,
   ⟨logUrl, ViewTag.log⟩,
   ⟨commitUrl, ViewTag.commit⟩,
   ⟨patchUrl, ViewTag.patch⟩,
   ⟨treeRootUrl, ViewTag.tree⟩,
   ⟨treeRootRefUrl, ViewTag.tree⟩,
   ⟨treeRootRefPathUrl, ViewTag.tree⟩]

/-- A dispatch outcome: the static file server, a matched route (its
position in the list, its handler and the extracted URL parts), or the
terminal not-found page. -/
inductive DispatchResult where
  | static
  | matched (idx : Nat) (view : ViewTag) (urlParts : List String)
  | notFound
deriving DecidableEq

/-- The route loop of Dispatch (source lines 704-722): first pattern
that matches the URL string wins; its submatches past index zero become
the ordered URL parts. -/
def dispatchList : Nat → List Route → String → DispatchResult
  | _, [], _ => DispatchResult.notFound
  | idx, r :: rest, url =>
    match matchPat r.pattern url with
    | some parts => DispatchResult.matched idx r.view parts
    | none => dispatchList (idx + 1) rest url

/-- Dispatch (source lines 697-723) on the full URL string
(ctx.Request.URL.String(), which includes any query string): the
static prefix is intercepted first, then the route loop, then the
not-found page. -/
def Dispatch (url : String) : DispatchResult :=
  if "/static/".data.isPrefixOf url.data then DispatchResult.static
  else dispatchList 0 routes url

/-- URL.String() of a request URL: path, then the query string after a
question mark when the query is non-empty. -/
def urlWithQuery (path query : String) : String :=
  if query = "" then path else path ++ "?" ++ query

/-- Did a pattern element admit this character somewhere? (Used to show
patterns made only of query-free elements cannot match a URL that
carries a query string.) -/
def itemAllows : RItem → Char → Bool
  | RItem.lit l, c => decide (c ∈ l)
  | RItem.one p, c => p c
  | RItem.grpPlus p, c => p c
  | RItem.grpStar p, c => p c
  | RItem.eos, _ => false

/-- Does no pattern of the first n routes match the URL? -/
def noneBefore (rs : List Route) (url : String) (n : Nat) : Bool :=
  (rs.take n).all (fun r => (matchPat r.pattern url).isNone)

/-! ## Concrete fixtures used by witnesses and counterexamples -/

/-- Fixture: a resolver knowing only a main branch. -/
def mainOnlyResolve : String → Option String :=
  fun s => if s = "main" then some "aaaa1111" else none

/-- Fixture: a repository whose head commit has an unreadable tree. -/
def brokenTreeRepo : TreeRepo :=
  { resolveRevision := fun s => if s = "main" then some "deadbeef" else none,
    commitObject := fun h =>
      if h = "deadbeef" then some { tree := none } else none }

/-- Fixture file. -/
def fileA : TreeFile := { path := "a.txt", hash := "hashA" }

/-- Fixture file. -/
def fileB : TreeFile := { path := "b.txt", hash := "hashB" }

/-- Fixture: a commit store where commit c1 has an unreadable tree, so
its diff computation fails. -/
def diffFailLookup : String → Option DiffCommit :=
  fun h => if h = "c1" then some { parent := none, tree := none } else none

/-- Fixture: a commit store where commit c2 has changes whose per-file
patch rendering will fail. -/
def fmtFailLookup : String → Option DiffCommit :=
  fun h => if h = "c2" then some { parent := none, tree := some [fileA] }
           else none

/-- Fixture: a parentless (root) commit for the patch renderer. -/
def rootPatchCommit : PatchCommit :=
  { hash := "aaaa", authorName := "Ann", authorEmail := "ann@example.com",
    authorDate := "Mon, 1 Jan 2024 00:00:00 +0000", message := "init",
    numParents := 0, parent0 := none, stats := none }

/-- Fixture: a one-parent commit for the patch renderer. -/
def childPatchCommit : PatchCommit :=
  { hash := "bbbb", authorName := "Ann", authorEmail := "ann@example.com",
    authorDate := "Tue, 2 Jan 2024 00:00:00 +0000", message := "change",
    numParents := 1, parent0 := some { patchAgainst := some "the diff" },
    stats := some " a.txt | 1 +" }

/-- Fixture: a two-entry root tree with one file and one subtree. -/
def sampleEntries : List (String × Bool × GitObject) :=
  [("a.txt", true, GitObject.blob (some "hello")),
   ("src", false, GitObject.tree [("b.txt", true, GitObject.blob (some "bee"))])]

/-- Fixture: 150 commits, newest first by committer time. -/
def manyCommits : List LogCommit :=
  (List.range 150).map
    (fun i => { hash := "cafebabe42", message := "subject\nbody",
                committerTime := 150 - i })

/-! # Theorems -/

/-! ## Reference collector -/

/-- A collection run that ends without error returns a sorted list. -/
theorem collectLoop_ok_sorted :
    ∀ (steps : List RefStep) (acc l : List Reference),
      collectLoop steps acc = (l, none) → List.Sorted refLE l := by
  intro steps
  induction steps with
  | nil =>
    intro acc l h
    simp only [collectLoop, Prod.mk.injEq] at h
    rw [← h.1]
    exact List.sorted_insertionSort refLE acc
  | cons s rest ih =>
    intro acc l h
    cases s with
    | ref r => exact ih (acc ++ [r]) l h
    | eof =>
      simp only [collectLoop, Prod.mk.injEq] at h
      rw [← h.1]
      exact List.sorted_insertionSort refLE acc
    | err e =>
      simp only [collectLoop, Prod.mk.injEq] at h
      exact absurd h.2 (by simp)

/-- A non-EOF error surfaces together with the partial slice. -/
theorem collectLoop_err :
    ∀ (rs acc : List Reference) (e : Nat) (rest : List RefStep),
      collectLoop (rs.map RefStep.ref ++ RefStep.err e :: rest) acc =
        (acc ++ rs, some e) := by
  intro rs
  induction rs with
  | nil => intro acc e rest; simp [collectLoop]
  | cons r rs ih =>
    intro acc e rest
    have h := ih (acc ++ [r]) e rest
    simp only [List.map_cons, List.cons_append, collectLoop]
    simpa using h

/-- C7: a successful reference collection is non-decreasing under the
lexicographic order on the full reference name; an iterator that
signals end-of-stream immediately collects to the empty list with no
error; a non-EOF iteration error surfaces to the caller. -/
theorem C7_referenceCollector :
    (∀ steps l, ReferenceCollector steps = (l, none) → List.Sorted refLE l) ∧
    ReferenceCollector [RefStep.eof] = ([], none) ∧
    (∀ (rs : List Reference) (e : Nat) (rest : List RefStep),
      ReferenceCollector (rs.map RefStep.ref ++ RefStep.err e :: rest) =
        (rs, some e)) := by
  refine ⟨fun steps l h => collectLoop_ok_sorted steps [] l h, rfl, ?_⟩
  intro rs e rest
  have h := collectLoop_err rs [] e rest
  simpa using h

/-- Witness for C7 at concrete iterators: a two-reference stream
collects sorted, and an error stream surfaces its error with the
partial slice. -/
theorem C7_referenceCollector_witness :
    List.Sorted refLE
      (ReferenceCollector
        [RefStep.ref ⟨"refs/heads/b", "t1"⟩, RefStep.ref ⟨"refs/heads/a", "t2"⟩,
         RefStep.eof]).1 ∧
    ReferenceCollector
        [RefStep.ref ⟨"refs/heads/a", "t2"⟩, RefStep.err 7, RefStep.eof] =
      ([⟨"refs/heads/a", "t2"⟩], some 7) := by
  constructor
  · exact C7_referenceCollector.1
      [RefStep.ref ⟨"refs/heads/b", "t1"⟩, RefStep.ref ⟨"refs/heads/a", "t2"⟩,
       RefStep.eof]
      [⟨"refs/heads/a", "t2"⟩, ⟨"refs/heads/b", "t1"⟩] rfl
  · exact C7_referenceCollector.2.2 [⟨"refs/heads/a", "t2"⟩] 7 [RefStep.eof]

/-! ## Revision resolver -/

/-- C6: the default-branch policy tries main first, then master,
returning the first that resolves and failing exactly when neither
exists; when a main branch exists, the empty-revision resolution
coincides with resolving "main". -/
theorem C6_defaultBranchPolicy :
    ∀ resolveRevision : String → Option String,
      (∀ h, resolveRevision "main" = some h →
        findMainBranch resolveRevision = some ("main", h) ∧
        resolveOrDefault resolveRevision "" = resolveRevision "main") ∧
      (∀ h, resolveRevision "main" = none → resolveRevision "master" = some h →
        findMainBranch resolveRevision = some ("master", h) ∧
        resolveOrDefault resolveRevision "" = resolveRevision "master") ∧
      (findMainBranch resolveRevision = none ↔
        resolveRevision "main" = none ∧ resolveRevision "master" = none) := by
  intro f
  refine ⟨?_, ?_, ?_⟩
  · intro h hm
    constructor
    · simp [findMainBranch, hm]
    · simp [resolveOrDefault, findMainBranch, hm]
  · intro h hm hms
    constructor
    · simp [findMainBranch, hm, hms]
    · simp [resolveOrDefault, findMainBranch, hm, hms]
  · cases hm : f "main" with
    | some h => simp [findMainBranch, hm]
    | none =>
      cases hms : f "master" with
      | some h => simp [findMainBranch, hm, hms]
      | none => simp [findMainBranch, hm, hms]

/-- Witness for C6 at a resolver that knows only a main branch. -/
theorem C6_defaultBranchPolicy_witness :
    findMainBranch mainOnlyResolve = some ("main", "aaaa1111") ∧
    resolveOrDefault mainOnlyResolve "" = mainOnlyResolve "main" :=
  (C6_defaultBranchPolicy mainOnlyResolve).1 "aaaa1111" rfl

/-! ## Diff engine -/

/-- Diffing against the empty from-tree turns every file of the
to-tree into an insertion. -/
theorem diffTree_empty_from :
    ∀ t : List TreeFile, diffTree [] t = t.map Change.insert := by
  intro t
  simp only [diffTree, List.filter_nil, List.map_nil, List.nil_append]
  induction t with
  | nil => rfl
  | cons e t ih => simpa [List.filterMap_cons] using ih

/-- C3: for a commit with no parent, GetChanges is defined and computes
the change set against the empty tree, in which every file of the
commit's tree appears as an addition. -/
theorem C3_rootCommitChanges :
    ∀ (c : DiffCommit) (t : List TreeFile), c.parent = none → c.tree = some t →
      GetChanges c = Except.ok (diffTree [] t) ∧
      diffTree [] t = t.map Change.insert := by
  intro c t hp ht
  unfold GetChanges
  rw [hp, ht]
  exact ⟨rfl, diffTree_empty_from t⟩

/-- Witness for C3 at a concrete two-file root commit. -/
theorem C3_rootCommitChanges_witness :
    GetChanges { parent := none, tree := some [fileA, fileB] } =
      Except.ok (diffTree [] [fileA, fileB]) ∧
    diffTree [] [fileA, fileB] = [Change.insert fileA, Change.insert fileB] :=
  C3_rootCommitChanges { parent := none, tree := some [fileA, fileB] }
    [fileA, fileB] rfl rfl

/-! ## Patch renderer -/

/-- A string append with a non-empty left part is non-empty. -/
theorem string_append_ne_empty_left (a b : String) (ha : a ≠ "") :
    a ++ b ≠ "" := by
  intro h
  apply ha
  have hd : a.data ++ b.data = [] := congrArg String.data h
  have h2 : a.data = [] := (List.append_eq_nil.mp hd).1
  exact congrArg String.mk h2

/-- The mailbox body is never empty (it starts with the From line). -/
theorem mailboxBody_ne_empty (c : PatchCommit) (stats patch : String) :
    mailboxBody c stats patch ≠ "" := by
  unfold mailboxBody
  repeat apply string_append_ne_empty_left
  decide

/-- C2: the patch renderer rejects every commit with zero parents with
the server-error outcome; for a commit with at least one parent (whose
store reads succeed) it renders the mailbox body: the synthetic From
line, the From:, Date: and Subject: [PATCH] headers, the literal ---
separator, the diffstat, and the unified diff against the first parent
only (the patch the parent0 field carries). -/
theorem C2_renderPatch :
    ∀ c : PatchCommit,
      (c.numParents = 0 → renderPatch c = PatchResult.http500) ∧
      (∀ p patch stats, c.numParents ≠ 0 → c.parent0 = some p →
        p.patchAgainst = some patch → c.stats = some stats →
        renderPatch c = PatchResult.ok (mailboxBody c stats patch) ∧
        mailboxBody c stats patch =
          "From " ++ c.hash ++ " Mon Sep 17 00:00:00 2001" ++ "\n" ++
          "From: " ++ c.authorName ++ " <" ++ c.authorEmail ++ ">" ++ "\n" ++
          "Date: " ++ c.authorDate ++ "\n" ++
          "Subject: [PATCH] " ++ c.message ++ "\n" ++
          "---" ++ "\n" ++ stats ++ "\n" ++ patch ∧
        mailboxBody c stats patch ≠ "") := by
  intro c
  constructor
  · intro h
    simp [renderPatch, h]
  · intro p patch stats hn hp hpa hs
    have hre : renderPatch c = PatchResult.ok (mailboxBody c stats patch) := by
      simp only [renderPatch]
      rw [if_neg hn]
      simp only [hp, hpa, hs]
    exact ⟨hre, rfl, mailboxBody_ne_empty c stats patch⟩

/-- Witness for C2: a concrete root commit is rejected and a concrete
one-parent commit renders its mailbox body. -/
theorem C2_renderPatch_witness :
    renderPatch rootPatchCommit = PatchResult.http500 ∧
    renderPatch childPatchCommit =
      PatchResult.ok (mailboxBody childPatchCommit " a.txt | 1 +" "the diff") := by
  constructor
  · exact (C2_renderPatch rootPatchCommit).1 rfl
  · exact ((C2_renderPatch childPatchCommit).2 { patchAgainst := some "the diff" }
      "the diff" " a.txt | 1 +" (by decide) rfl rfl rfl).1

/-! ## Error mapping of the tree and commit handlers -/

/-- C1 counterexample: with a found repository and resolvable revision
whose commit tree is unreadable, the tree handler answers Http404 (not
Http500); with diff computation failing, and with per-file patch
rendering failing, the commit handler answers Http404 (not Http500). -/
theorem C1_counterexample :
    TreeView (some brokenTreeRepo) ["myrepo"] = TreeViewResult.http404 ∧
    TreeView (some brokenTreeRepo) ["myrepo"] ≠ TreeViewResult.http500 ∧
    CommitView true "c1" diffFailLookup (fun _ => none) =
      CommitViewResult.http404 ∧
    CommitView true "c1" diffFailLookup (fun _ => none) ≠
      CommitViewResult.http500 ∧
    CommitView true "c2" fmtFailLookup (fun _ => none) =
      CommitViewResult.http404 := by
  refine ⟨rfl, ?_, rfl, ?_, rfl⟩
  · intro h
    exact TreeViewResult.noConfusion h
  · intro h
    exact CommitViewResult.noConfusion h

/-- C1 amended: the internal store failures of the claim map to the
404-equivalent page: an unreadable commit tree in the tree handler, and
a diff-computation or per-file patch-render failure in the commit
handler, which moreover never answers Http500 at all. -/
theorem C1_internalFailuresMapTo404 :
    (∀ (repo : TreeRepo) (name ref hash : String) (c : TreeCommit),
      repo.resolveRevision ref = some hash →
      repo.commitObject hash = some c →
      c.tree = none →
      TreeView (some repo) [name, ref] = TreeViewResult.http404) ∧
    (∀ (repoFound : Bool) (commitID : String)
       (co : String → Option DiffCommit) (patchOf : Change → Option String)
       (c : DiffCommit) (e : GitErr),
      co commitID = some c → GetChanges c = Except.error e →
      CommitView repoFound commitID co patchOf = CommitViewResult.http404) ∧
    (∀ (repoFound : Bool) (commitID : String)
       (co : String → Option DiffCommit) (patchOf : Change → Option String)
       (c : DiffCommit) (changes : List Change),
      co commitID = some c → GetChanges c = Except.ok changes →
      FormatChanges patchOf changes = none →
      CommitView repoFound commitID co patchOf = CommitViewResult.http404) ∧
    (∀ repoFound commitID co patchOf,
      CommitView repoFound commitID co patchOf ≠ CommitViewResult.http500) := by
  refine ⟨?_, ?_, ?_, ?_⟩
  · intro repo name ref hash c hres hco htree
    have hshape : TreeView (some repo) [name, ref] =
        (match repo.resolveRevision ref with
         | none => TreeViewResult.http404
         | some revision =>
           match repo.commitObject revision with
           | none => TreeViewResult.http404
           | some c =>
             match c.tree with
             | none => TreeViewResult.http404
             | some entries =>
               match treeNavigate entries "" with
               | NavResult.notFound => TreeViewResult.http404
               | r => TreeViewResult.page r) := rfl
    rw [hshape]
    simp only [hres, hco, htree]
  · intro rf cid co p c e hco hgc
    by_cases hrf : rf = false
    · simp [CommitView, hrf]
    · by_cases hcid : cid = ""
      · simp [CommitView, hrf, hcid]
      · simp [CommitView, hrf, hcid, hco, hgc]
  · intro rf cid co p c changes hco hgc hfmt
    by_cases hrf : rf = false
    · simp [CommitView, hrf]
    · by_cases hcid : cid = ""
      · simp [CommitView, hrf, hcid]
      · simp [CommitView, hrf, hcid, hco, hgc, hfmt]
  · intro rf cid co p h
    unfold CommitView at h
    split at h
    · exact CommitViewResult.noConfusion h
    · split at h
      · exact CommitViewResult.noConfusion h
      · split at h
        · exact CommitViewResult.noConfusion h
        · split at h
          · exact CommitViewResult.noConfusion h
          · split at h
            · exact CommitViewResult.noConfusion h
            · exact CommitViewResult.noConfusion h

/-- Witness for C1 amended, at the concrete broken stores. -/
theorem C1_internalFailuresMapTo404_witness :
    TreeView (some brokenTreeRepo) ["myrepo", "main"] = TreeViewResult.http404 ∧
    CommitView true "c1" diffFailLookup (fun _ => none) =
      CommitViewResult.http404 ∧
    CommitView true "c2" fmtFailLookup (fun _ => none) =
      CommitViewResult.http404 := by
  refine ⟨?_, ?_, ?_⟩
  · exact C1_internalFailuresMapTo404.1 brokenTreeRepo "myrepo" "main" "deadbeef"
      { tree := none } rfl rfl rfl
  · exact C1_internalFailuresMapTo404.2.1 true "c1" diffFailLookup (fun _ => none)
      { parent := none, tree := none } GitErr.storeFailure rfl rfl
  · exact C1_internalFailuresMapTo404.2.2.1 true "c2" fmtFailLookup (fun _ => none)
      { parent := none, tree := some [fileA] } (diffTree [] [fileA]) rfl rfl rfl

/-! ## Tree navigation -/

/-- C5: no navigation result carries both directory and file data; the
result is always exactly one of root, directory, file and not-found;
a path resolving to a file-mode entry never yields directory data and
a path resolving to a non-file entry never yields file data. -/
theorem C5_navigationExclusive :
    (∀ r : NavResult,
      ¬(NavResult.hasDirData r = true ∧ NavResult.hasFileData r = true)) ∧
    (∀ entries treePath,
      (∃ fs, treeNavigate entries treePath = NavResult.root fs) ∨
      (∃ a b c fs,
        treeNavigate entries treePath = NavResult.directory a b c fs) ∨
      (∃ a b c, treeNavigate entries treePath = NavResult.file a b c) ∨
      treeNavigate entries treePath = NavResult.notFound) ∧
    (∀ entries treePath e, treePath ≠ "" →
      findEntry entries (splitSlash treePath) = some e →
      (e.2.1 = true →
        NavResult.hasDirData (treeNavigate entries treePath) = false) ∧
      (e.2.1 = false →
        NavResult.hasFileData (treeNavigate entries treePath) = false)) := by
  refine ⟨?_, ?_, ?_⟩
  · intro r h
    cases r <;> simp [NavResult.hasDirData, NavResult.hasFileData] at h
  · intro entries treePath
    cases h : treeNavigate entries treePath with
    | root fs => exact Or.inl ⟨fs, rfl⟩
    | directory a b c fs => exact Or.inr (Or.inl ⟨a, b, c, fs, rfl⟩)
    | file a b c => exact Or.inr (Or.inr (Or.inl ⟨a, b, c, rfl⟩))
    | notFound => exact Or.inr (Or.inr (Or.inr rfl))
  · intro entries treePath e hne hfe
    constructor
    · intro hfile
      simp only [treeNavigate, if_neg hne, hfe]
      rw [if_neg (by simp [hfile])]
      cases fileAt entries (splitSlash treePath) with
      | none => rfl
      | some o =>
        cases o with
        | none => rfl
        | some s => rfl
    · intro hdir
      simp only [treeNavigate, if_neg hne, hfe]
      rw [if_pos hdir]
      cases subtreeAt entries (splitSlash treePath) with
      | none => rfl
      | some es => rfl

/-- Witness for C5 at a concrete tree: the file path yields no
directory data and the subtree path yields no file data. -/
theorem C5_navigationExclusive_witness :
    NavResult.hasDirData (treeNavigate sampleEntries "a.txt") = false ∧
    NavResult.hasFileData (treeNavigate sampleEntries "src") = false := by
  constructor
  · exact (C5_navigationExclusive.2.2 sampleEntries "a.txt"
      ("a.txt", true, GitObject.blob (some "hello")) (by decide) rfl).1 rfl
  · exact (C5_navigationExclusive.2.2 sampleEntries "src"
      ("src", false, GitObject.tree
        [("b.txt", true, GitObject.blob (some "bee"))]) (by decide) rfl).2 rfl

/-! ## Log pagination -/

/-- The page a log loop produces never exceeds the remaining budget. -/
theorem logLoop_le :
    ∀ (n : Nat) (steps : List LogStep) (acc cs : List CommitEntry),
      logLoop n steps acc = LogOutcome.page cs → cs.length ≤ acc.length + n := by
  intro n
  induction n with
  | zero =>
    intro steps acc cs h
    injection h with h
    rw [h]
    omega
  | succ n ih =>
    intro steps acc cs h
    cases steps with
    | nil =>
      injection h with h
      rw [← h]
      omega
    | cons s rest =>
      cases s with
      | eof =>
        injection h with h
        rw [← h]
        omega
      | err => exact LogOutcome.noConfusion h
      | next c =>
        have h2 := ih rest (acc ++ [mkCommitEntry c]) cs h
        simp only [List.length_append, List.length_cons, List.length_nil] at h2
        omega

/-- Draining an EOF-terminated stream takes the first n commits. -/
theorem logLoop_exhaust :
    ∀ (n : Nat) (cs : List LogCommit) (acc : List CommitEntry),
      logLoop n (cs.map LogStep.next ++ [LogStep.eof]) acc =
        LogOutcome.page (acc ++ (cs.take n).map mkCommitEntry) := by
  intro n
  induction n with
  | zero => intro cs acc; simp [logLoop]
  | succ n ih =>
    intro cs acc
    cases cs with
    | nil => simp [logLoop]
    | cons c cs =>
      simp only [List.map_cons, List.cons_append, logLoop, List.append_eq]
      rw [ih cs (acc ++ [mkCommitEntry c])]
      simp [List.take_succ_cons, List.append_assoc]

/-- C8: the log page holds at most PAGE_SIZE (100) commits; an
EOF-terminated history is drained without error into the first
PAGE_SIZE commits in stream order; a newest-first stream yields a
newest-first page; a 150-commit history yields exactly 100 commits. -/
theorem C8_logPagination :
    (∀ steps cs, logPage steps = LogOutcome.page cs → cs.length ≤ PAGE_SIZE) ∧
    (∀ commits : List LogCommit,
      logPage (commits.map LogStep.next ++ [LogStep.eof]) =
        LogOutcome.page ((commits.take PAGE_SIZE).map mkCommitEntry)) ∧
    (∀ commits : List LogCommit, List.Sorted newestFirst commits →
      ∀ cs, logPage (commits.map LogStep.next ++ [LogStep.eof]) =
        LogOutcome.page cs →
        List.Sorted (fun a b => newestFirst a.commit b.commit) cs) ∧
    (∀ commits : List LogCommit, commits.length = 150 →
      ∃ cs, logPage (commits.map LogStep.next ++ [LogStep.eof]) =
        LogOutcome.page cs ∧ cs.length = 100) := by
  have hex : ∀ commits : List LogCommit,
      logPage (commits.map LogStep.next ++ [LogStep.eof]) =
        LogOutcome.page ((commits.take PAGE_SIZE).map mkCommitEntry) := by
    intro commits
    have h := logLoop_exhaust PAGE_SIZE commits []
    simpa using h
  refine ⟨?_, hex, ?_, ?_⟩
  · intro steps cs h
    have h2 := logLoop_le PAGE_SIZE steps [] cs h
    simpa using h2
  · intro commits hsort cs h
    rw [hex commits] at h
    injection h with h
    rw [← h]
    have hp : List.Pairwise (fun a b => newestFirst a.commit b.commit)
        (List.map mkCommitEntry (List.take PAGE_SIZE commits)) := by
      rw [List.pairwise_map]
      exact List.Pairwise.sublist (List.take_sublist PAGE_SIZE commits) hsort
    exact hp
  · intro commits hlen
    refine ⟨(commits.take PAGE_SIZE).map mkCommitEntry, hex commits, ?_⟩
    simp [List.length_take, hlen, PAGE_SIZE]

/-- The 150-commit fixture is newest-first. -/
theorem manyCommits_sorted : List.Sorted newestFirst manyCommits := by
  have hp : List.Pairwise newestFirst manyCommits := by
    unfold manyCommits
    rw [List.pairwise_map]
    refine (List.pairwise_lt_range 150).imp ?_
    intro a b hab
    show 150 - b ≤ 150 - a
    omega
  exact hp

/-- Witness for C8 at concrete streams, among them the 150-commit
fixture. -/
theorem C8_logPagination_witness :
    ([] : List CommitEntry).length ≤ PAGE_SIZE ∧
    logPage (manyCommits.map LogStep.next ++ [LogStep.eof]) =
      LogOutcome.page ((manyCommits.take PAGE_SIZE).map mkCommitEntry) ∧
    List.Sorted (fun a b => newestFirst a.commit b.commit)
      ((manyCommits.take PAGE_SIZE).map mkCommitEntry) ∧
    (∃ cs, logPage (manyCommits.map LogStep.next ++ [LogStep.eof]) =
      LogOutcome.page cs ∧ cs.length = 100) := by
  refine ⟨?_, ?_, ?_, ?_⟩
  · exact C8_logPagination.1 [LogStep.eof] [] rfl
  · exact C8_logPagination.2.1 manyCommits
  · exact C8_logPagination.2.2.1 manyCommits manyCommits_sorted _
      (C8_logPagination.2.1 manyCommits)
  · exact C8_logPagination.2.2.2 manyCommits (by simp [manyCommits])

/-- C10: the log loop of the source checks only io.EOF; an iterator
whose Next fails with any other error drives the loop into reading
commit.Message on the nil commit pointer that came with the error, both
on the first call and mid-page. -/
theorem C10_nilDereference :
    logPage [LogStep.err] = LogOutcome.nilDereference ∧
    logPage [LogStep.next
        { hash := "cafebabe42", message := "m", committerTime := 9 },
      LogStep.err] = LogOutcome.nilDereference :=
  ⟨rfl, rfl⟩

/-! ## Route dispatcher -/

/-- Inverting a successful greedy group: some capture length j at most
k was chosen, the capture is the corresponding prefix, and the
continuation matched the corresponding suffix. -/
theorem tryCaps_some :
    ∀ (k : Nat) (f : List Char → Option (List (List Char))) (s : List Char)
      (lo : Nat) (caps : List (List Char)),
      tryCaps f s lo k = some caps →
      ∃ j caps2, j ≤ k ∧ caps = List.take j s :: caps2 ∧
        f (List.drop j s) = some caps2 := by
  intro k
  induction k with
  | zero =>
    intro f s lo caps h
    simp only [tryCaps] at h
    split at h
    · exact absurd h (by simp)
    · cases hf : f s with
      | none => rw [hf] at h; exact absurd h (by simp)
      | some cs =>
        rw [hf] at h
        injection h with h
        exact ⟨0, cs, Nat.le_refl 0, by simp [← h], by simpa using hf⟩
  | succ k ih =>
    intro f s lo caps h
    simp only [tryCaps] at h
    split at h
    · exact absurd h (by simp)
    · cases hf : f (List.drop (Nat.succ k) s) with
      | some cs =>
        rw [hf] at h
        injection h with h
        exact ⟨Nat.succ k, cs, Nat.le_refl _, by simp [← h], hf⟩
      | none =>
        rw [hf] at h
        obtain ⟨j, caps2, hj, hc, hf2⟩ := ih f s lo caps h
        exact ⟨j, caps2, Nat.le_succ_of_le hj, hc, hf2⟩

/-- A prefix of length within the takeWhile run satisfies the class. -/
theorem take_mem_takeWhile (p : Char → Bool) :
    ∀ (s : List Char) (j : Nat), j ≤ (List.takeWhile p s).length →
      ∀ c ∈ List.take j s, p c = true := by
  intro s
  induction s with
  | nil => intro j hj c hc; simp at hc
  | cons a t ih =>
    intro j hj c hc
    cases j with
    | zero => simp at hc
    | succ j =>
      by_cases hp : p a = true
      · rw [List.takeWhile_cons, if_pos hp, List.length_cons] at hj
        rw [List.take_succ_cons] at hc
        rcases List.mem_cons.mp hc with h | h
        · rw [h]; exact hp
        · exact ih j (Nat.le_of_succ_le_succ hj) c h
      · rw [List.takeWhile_cons, if_neg hp] at hj
        simp at hj

/-- A list prefix decomposes its string. -/
theorem isPrefixOf_decomp :
    ∀ l s : List Char, l.isPrefixOf s = true →
      s = l ++ List.drop l.length s := by
  intro l
  induction l with
  | nil => intro s _; simp
  | cons a l ih =>
    intro s h
    cases s with
    | nil => simp [List.isPrefixOf] at h
    | cons b t =>
      simp only [List.isPrefixOf, Bool.and_eq_true, beq_iff_eq] at h
      obtain ⟨h1, h2⟩ := h
      rw [h1]
      simp only [List.cons_append, List.length_cons, List.drop_succ_cons,
        List.cons.injEq, true_and]
      exact ih t h2

/-- Every character a matched string contains is admitted by some
element of the pattern, provided the pattern is end-anchored (so that
the whole string is consumed). -/
theorem runItems_chars :
    ∀ (items : List RItem) (s : List Char) (caps : List (List Char)),
      runItems items s = some caps → RItem.eos ∈ items →
      ∀ c ∈ s, items.any (fun i => itemAllows i c) = true := by
  intro items
  induction items with
  | nil =>
    intro s caps _ he
    exact absurd he (by simp)
  | cons i rest ih =>
    intro s caps hrun he c hc
    cases i with
    | lit l =>
      simp only [runItems] at hrun
      split at hrun
      case isTrue hpre =>
        have he2 : RItem.eos ∈ rest := by
          rcases List.mem_cons.mp he with h | h
          · exact absurd h (by simp)
          · exact h
        have hs := isPrefixOf_decomp l s hpre
        rw [hs] at hc
        rcases List.mem_append.mp hc with h | h
        · simp only [List.any_cons, Bool.or_eq_true]
          exact Or.inl (by simp [itemAllows, h])
        · simp only [List.any_cons, Bool.or_eq_true]
          exact Or.inr (ih _ _ hrun he2 c h)
      case isFalse => exact absurd hrun (by simp)
    | one p =>
      cases s with
      | nil => simp at hc
      | cons a t =>
        simp only [runItems] at hrun
        have he2 : RItem.eos ∈ rest := by
          rcases List.mem_cons.mp he with h | h
          · exact absurd h (by simp)
          · exact h
        split at hrun
        next hp =>
          rcases List.mem_cons.mp hc with h | h
          · simp only [List.any_cons, Bool.or_eq_true]
            exact Or.inl (by simp [itemAllows, h, hp])
          · simp only [List.any_cons, Bool.or_eq_true]
            exact Or.inr (ih _ _ hrun he2 c h)
        next hp => exact absurd hrun (by simp)
    | grpPlus p =>
      simp only [runItems] at hrun
      obtain ⟨j, caps2, hj, _, hf⟩ := tryCaps_some _ _ _ _ _ hrun
      have he2 : RItem.eos ∈ rest := by
        rcases List.mem_cons.mp he with h | h
        · exact absurd h (by simp)
        · exact h
      have hsplit := List.take_append_drop j s
      rw [← hsplit] at hc
      rcases List.mem_append.mp hc with h | h
      · have hpj := take_mem_takeWhile p s j hj c h
        simp only [List.any_cons, Bool.or_eq_true]
        exact Or.inl (by simp [itemAllows, hpj])
      · simp only [List.any_cons, Bool.or_eq_true]
        exact Or.inr (ih _ _ hf he2 c h)
    | grpStar p =>
      simp only [runItems] at hrun
      obtain ⟨j, caps2, hj, _, hf⟩ := tryCaps_some _ _ _ _ _ hrun
      have he2 : RItem.eos ∈ rest := by
        rcases List.mem_cons.mp he with h | h
        · exact absurd h (by simp)
        · exact h
      have hsplit := List.take_append_drop j s
      rw [← hsplit] at hc
      rcases List.mem_append.mp hc with h | h
      · have hpj := take_mem_takeWhile p s j hj c h
        simp only [List.any_cons, Bool.or_eq_true]
        exact Or.inl (by simp [itemAllows, hpj])
      · simp only [List.any_cons, Bool.or_eq_true]
        exact Or.inr (ih _ _ hf he2 c h)
    | eos =>
      simp only [runItems] at hrun
      cases s with
      | nil => simp at hc
      | cons a t => exact absurd hrun (by simp)

/-- An end-anchored pattern none of whose elements admits the question
mark cannot match a URL carrying a non-empty query string. -/
theorem queryFreePattern_no_match :
    ∀ P : List RItem, RItem.eos ∈ P →
      P.any (fun i => itemAllows i '?') = false →
      ∀ path q : String, q ≠ "" →
        matchPat P (urlWithQuery path q) = none := by
  intro P heos hfree path q hq
  cases hm : matchPat P (urlWithQuery path q) with
  | none => rfl
  | some parts =>
    exfalso
    unfold matchPat at hm
    cases hr : runItems P (urlWithQuery path q).data with
    | none => rw [hr] at hm; exact absurd hm (by simp)
    | some caps =>
      have hdata : (urlWithQuery path q).data =
          path.data ++ ('?' :: q.data) := by
        unfold urlWithQuery
        rw [if_neg hq]
        show (path.data ++ ['?']) ++ q.data = path.data ++ ('?' :: q.data)
        rw [List.append_assoc]
        rfl
      have hmem : '?' ∈ (urlWithQuery path q).data := by
        rw [hdata]
        exact List.mem_append.mpr (Or.inr (List.mem_cons_self '?' q.data))
      have hall := runItems_chars P _ caps hr heos '?' hmem
      rw [hall] at hfree
      exact Bool.noConfusion hfree

/-- The route loop returns the first matching route with its position
and captures. -/
theorem dispatchList_first_match :
    ∀ (rs : List Route) (idx n : Nat) (r : Route) (parts : List String)
      (url : String),
      rs.get? n = some r → matchPat r.pattern url = some parts →
      noneBefore rs url n = true →
      dispatchList idx rs url = DispatchResult.matched (idx + n) r.view parts := by
  intro rs
  induction rs with
  | nil =>
    intro idx n r parts url h
    simp [List.get?] at h
  | cons r0 rest ih =>
    intro idx n r parts url hget hmatch hnone
    cases n with
    | zero =>
      simp only [List.get?, Option.some.injEq] at hget
      rw [← hget] at hmatch
      simp only [dispatchList, hmatch, Nat.add_zero]
      rw [← hget]
    | succ n =>
      have hnone2 := hnone
      simp only [noneBefore, List.take_succ_cons, List.all_cons,
        Bool.and_eq_true] at hnone2
      obtain ⟨h0, hrest⟩ := hnone2
      have h0n : matchPat r0.pattern url = none := by
        cases hmp : matchPat r0.pattern url with
        | none => rfl
        | some _ => rw [hmp] at h0; exact absurd h0 (by simp)
      simp only [dispatchList, h0n]
      have h2 := ih (idx + 1) n r parts url (by simpa [List.get?] using hget)
        hmatch (by simpa [noneBefore] using hrest)
      rw [h2]
      congr 1
      omega

/-- C4: dispatching evaluates the routes in registration order with
the first matching pattern winning, passing the captures in group
order; the request path of the scenario matches the three-segment tree
route (position 10), not the one- or two-segment tree routes, and
extracts exactly the repo, ref and path segments in that order. -/
theorem C4_firstMatchWins :
    (∀ (rs : List Route) (n : Nat) (r : Route) (parts : List String)
       (url : String),
      rs.get? n = some r → matchPat r.pattern url = some parts →
      noneBefore rs url n = true →
      dispatchList 0 rs url = DispatchResult.matched n r.view parts) ∧
    matchPat treeRootUrl "/myrepo/tree/main/src/app.go" = none ∧
    matchPat treeRootRefUrl "/myrepo/tree/main/src/app.go" = none ∧
    matchPat treeRootRefPathUrl "/myrepo/tree/main/src/app.go" =
      some ["myrepo", "main", "src/app.go"] ∧
    Dispatch "/myrepo/tree/main/src/app.go" =
      DispatchResult.matched 10 ViewTag.tree ["myrepo", "main", "src/app.go"] := by
  refine ⟨?_, rfl, rfl, rfl, rfl⟩
  intro rs n r parts url h1 h2 h3
  have h := dispatchList_first_match rs 0 n r parts url h1 h2 h3
  simpa using h

/-- Witness for C4: the general first-match statement applied to the
compiled route list at position 10 on the scenario path. -/
theorem C4_firstMatchWins_witness :
    dispatchList 0 routes "/myrepo/tree/main/src/app.go" =
      DispatchResult.matched 10 ViewTag.tree ["myrepo", "main", "src/app.go"] :=
  C4_firstMatchWins.1 routes 10 ⟨treeRootRefPathUrl, ViewTag.tree⟩
    ["myrepo", "main", "src/app.go"] "/myrepo/tree/main/src/app.go" rfl rfl rfl

/-- C9 counterexample: the dispatcher matches against the URL string
with the query included, yet a request with a non-empty query string
still matches the end-anchored three-segment tree route (its trailing
dot-star capture admits the question mark), so not every end-anchored
route fails and the outcome is not not-found. -/
theorem C9_counterexample :
    urlWithQuery "/myrepo/tree/main/src" "x=1" = "/myrepo/tree/main/src?x=1" ∧
    Dispatch "/myrepo/tree/main/src?x=1" =
      DispatchResult.matched 10 ViewTag.tree ["myrepo", "main", "src?x=1"] ∧
    Dispatch "/myrepo/tree/main/src?x=1" ≠ DispatchResult.notFound := by
  refine ⟨rfl, rfl, ?_⟩
  intro h
  exact DispatchResult.noConfusion h

/-- C9 amended: patterns are matched against the full URL string
including the query string; under a non-empty query string every
end-anchored route pattern except the three-segment tree route (whose
final dot-star capture admits the question mark) fails to match, so
such a request can only dispatch to the non-end-anchored git route
(position 2), the non-end-anchored patch route (position 7) or the
three-segment tree route (position 10), and when none of those three
matches, the route loop reaches the not-found outcome even when the
path component alone would have matched a route. -/
theorem C9_queryStringDefeatsLabelRoutes :
    ∀ path q : String, q ≠ "" →
      (matchPat indexUrl (urlWithQuery path q) = none ∧
       matchPat repoIndexUrl (urlWithQuery path q) = none ∧
       matchPat refsUrl (urlWithQuery path q) = none ∧
       matchPat logDefaultUrl (urlWithQuery path q) = none ∧
       matchPat logUrl (urlWithQuery path q) = none ∧
       matchPat commitUrl (urlWithQuery path q) = none ∧
       matchPat treeRootUrl (urlWithQuery path q) = none ∧
       matchPat treeRootRefUrl (urlWithQuery path q) = none) ∧
      (∀ idx tag parts,
        dispatchList 0 routes (urlWithQuery path q) =
          DispatchResult.matched idx tag parts →
        idx = 2 ∨ idx = 7 ∨ idx = 10) ∧
      (matchPat repoGitUrl (urlWithQuery path q) = none →
       matchPat patchUrl (urlWithQuery path q) = none →
       matchPat treeRootRefPathUrl (urlWithQuery path q) = none →
       dispatchList 0 routes (urlWithQuery path q) =
         DispatchResult.notFound) := by
  intro path q hq
  have h0 : matchPat indexUrl (urlWithQuery path q) = none :=
    queryFreePattern_no_match indexUrl (by simp [indexUrl]) (by decide) path q hq
  have h1 : matchPat repoIndexUrl (urlWithQuery path q) = none :=
    queryFreePattern_no_match repoIndexUrl (by simp [repoIndexUrl]) (by decide)
      path q hq
  have h3 : matchPat refsUrl (urlWithQuery path q) = none :=
    queryFreePattern_no_match refsUrl (by simp [refsUrl]) (by decide) path q hq
  have h4 : matchPat logDefaultUrl (urlWithQuery path q) = none :=
    queryFreePattern_no_match logDefaultUrl (by simp [logDefaultUrl])
      (by decide) path q hq
  have h5 : matchPat logUrl (urlWithQuery path q) = none :=
    queryFreePattern_no_match logUrl (by simp [logUrl]) (by decide) path q hq
  have h6 : matchPat commitUrl (urlWithQuery path q) = none :=
    queryFreePattern_no_match commitUrl (by simp [commitUrl]) (by decide)
      path q hq
  have h8 : matchPat treeRootUrl (urlWithQuery path q) = none :=
    queryFreePattern_no_match treeRootUrl (by simp [treeRootUrl]) (by decide)
      path q hq
  have h9 : matchPat treeRootRefUrl (urlWithQuery path q) = none :=
    queryFreePattern_no_match treeRootRefUrl (by simp [treeRootRefUrl])
      (by decide) path q hq
  refine ⟨⟨h0, h1, h3, h4, h5, h6, h8, h9⟩, ?_, ?_⟩
  · intro idx tag parts hm
    simp only [routes, dispatchList, h0, h1, h3, h4, h5, h6, h8, h9] at hm
    cases hg : matchPat repoGitUrl (urlWithQuery path q) with
    | some ps =>
      simp only [hg, DispatchResult.matched.injEq] at hm
      exact Or.inl hm.1.symm
    | none =>
      simp only [hg] at hm
      cases hp : matchPat patchUrl (urlWithQuery path q) with
      | some ps =>
        simp only [hp, DispatchResult.matched.injEq] at hm
        exact Or.inr (Or.inl hm.1.symm)
      | none =>
        simp only [hp] at hm
        cases ht : matchPat treeRootRefPathUrl (urlWithQuery path q) with
        | some ps =>
          simp only [ht, DispatchResult.matched.injEq] at hm
          exact Or.inr (Or.inr hm.1.symm)
        | none =>
          simp only [ht] at hm
          exact absurd hm (by simp)
  · intro hg hp ht
    simp only [routes, dispatchList, h0, h1, h3, h4, h5, h6, h8, h9, hg, hp, ht]

/-- Witness for C9 amended at concrete inputs: the refs pattern fails
under a query and the route loop reaches not-found there, while a
query URL that does dispatch (through the non-end-anchored patch
route) lands on one of the three permitted positions. -/
theorem C9_queryString_witness :
    matchPat refsUrl (urlWithQuery "/myrepo/refs" "x=1") = none ∧
    dispatchList 0 routes (urlWithQuery "/myrepo/refs" "x=1") =
      DispatchResult.notFound ∧
    ((7 : Nat) = 2 ∨ (7 : Nat) = 7 ∨ (7 : Nat) = 10) ∧
    Dispatch "/myrepo/refs?x=1" = DispatchResult.notFound ∧
    Dispatch "/repo/commit/abcypatch?x=1" =
      DispatchResult.matched 7 ViewTag.patch ["repo", "abc"] ∧
    Dispatch "/myrepo/refs" = DispatchResult.matched 3 ViewTag.refs ["myrepo"] := by
  refine ⟨?_, ?_, ?_, rfl, rfl, rfl⟩
  · exact (C9_queryStringDefeatsLabelRoutes "/myrepo/refs" "x=1"
      (by decide)).1.2.2.1
  · exact (C9_queryStringDefeatsLabelRoutes "/myrepo/refs" "x=1"
      (by decide)).2.2 rfl rfl rfl
  · exact (C9_queryStringDefeatsLabelRoutes "/repo/commit/abcypatch" "x=1"
      (by decide)).2.1 7 ViewTag.patch ["repo", "abc"] rfl

end Smithy



